import Mathlib

/-!
Verification development for the clangd-parser chunker.

The Go sources are embedded shallowly: strings are Lean `String`
(a list of characters), Go slices of strings are `List String`, Go `int`
is `Int`, and the recursive symbol traversal is structural recursion.
File I/O (reading source lines, writing the output file) is factored out:
functions receive the file's lines as an argument, matching
`readFileLines`, which yields an empty line list on any read error.
-/

/-- Character class of Go's `unicode.IsSpace` (the Unicode White_Space
property), used by `strings.TrimSpace`. -/
def goIsSpace (c : Char) : Bool :=
  c = ' ' || c = '\t' || c = '\n' || (0x0B ≤ c.toNat && c.toNat ≤ 0x0D) ||
  c.toNat = 0x85 || c.toNat = 0xA0 || c.toNat = 0x1680 ||
  (0x2000 ≤ c.toNat && c.toNat ≤ 0x200A) ||
  c.toNat = 0x2028 || c.toNat = 0x2029 || c.toNat = 0x202F ||
  c.toNat = 0x205F || c.toNat = 0x3000

/-- Character-list core of `strings.TrimSpace`: drop whitespace from the
front, then from the back. -/
def trimChars (l : List Char) : List Char :=
  List.rdropWhile goIsSpace (l.dropWhile goIsSpace)

/-- Models Go `strings.TrimSpace`. -/
def goTrimSpace (s : String) : String :=
  String.mk (trimChars s.data)

/-- The character class `[A-Za-z0-9_]` kept by `splitAlphaNum` (the
complement of the split pattern) and by the `\W+` word splitter. -/
def isWordChar (c : Char) : Bool :=
  ('A' ≤ c && c ≤ 'Z') || ('a' ≤ c && c ≤ 'z') || ('0' ≤ c && c ≤ '9') || c = '_'

/-- Generic run splitter: cut the character list at every maximal run of
characters rejected by `keep` and drop the empty fragments.  This is the
common core of `splitAlphaNum` (regexp split on non-word runs followed by
`filterEmpty`), of `regexp \W+` splitting in `TokenizeForText`, and of
`strings.FieldsFunc` on underscores.  The second argument accumulates the
current fragment in reverse. -/
def goFields (keep : Char → Bool) : List Char → List Char → List (List Char)
  | [], cur => if cur = [] then [] else [cur.reverse]
  | c :: cs, cur =>
    if keep c then goFields keep cs (c :: cur)
    else if cur = [] then goFields keep cs []
    else cur.reverse :: goFields keep cs []

/-- Models `splitAlphaNum`: split on runs of `[^A-Za-z0-9_]+` characters
and keep the non-empty fragments. -/
def splitAlphaNum (s : String) : List String :=
  (goFields isWordChar s.data []).map String.mk

/-- Models the `strings.NewReplacer("::", " ", "->", " ", ".", " ")`
normalization used by both `Humanize` and `Subtokenize`: replace each
non-overlapping occurrence of a separator, scanning left to right. -/
def normalizeSeps : List Char → List Char
  | ':' :: ':' :: rest => ' ' :: normalizeSeps rest
  | '-' :: '>' :: rest => ' ' :: normalizeSeps rest
  | '.' :: rest => ' ' :: normalizeSeps rest
  | c :: rest => c :: normalizeSeps rest
  | [] => []

/-- ASCII lowercase map, written as an explicit table.  Models Go
`strings.ToLower` on the strings the tokenizer feeds it, which consist
only of `[A-Za-z0-9_]` characters because they come out of
`splitAlphaNum`. -/
def asciiToLower (c : Char) : Char :=
  match c with
  | 'A' => 'a' | 'B' => 'b' | 'C' => 'c' | 'D' => 'd' | 'E' => 'e'
  | 'F' => 'f' | 'G' => 'g' | 'H' => 'h' | 'I' => 'i' | 'J' => 'j'
  | 'K' => 'k' | 'L' => 'l' | 'M' => 'm' | 'N' => 'n' | 'O' => 'o'
  | 'P' => 'p' | 'Q' => 'q' | 'R' => 'r' | 'S' => 's' | 'T' => 't'
  | 'U' => 'u' | 'V' => 'v' | 'W' => 'w' | 'X' => 'x' | 'Y' => 'y'
  | 'Z' => 'z'
  | _ => c

/-- ASCII string lowercasing (see `asciiToLower`). -/
def strLower (s : String) : String :=
  String.mk (s.data.map asciiToLower)

/-- Models `filterEmpty`: drop empty strings. -/
def filterEmpty (l : List String) : List String :=
  l.filter (fun v => v ≠ "")

/-! ## The LSP symbol model

The `lsp.DocumentSymbol` type and the `lsp.SymbolKind*` constants are
declared in a file of the repository that is not among the sources
(only their uses appear, in `internal/parser` and the tests). -/

/-- Modelled from the spec: the standard LSP numeric symbol-kind codes
behind the `lsp.SymbolKind*` constants (§6 kind table; the external
collaborator is an LSP server). -/
def SymbolKindNamespace : Int := 3

/-- Modelled from the spec: LSP kind code for Class. -/
def SymbolKindClass : Int := 5

/-- Modelled from the spec: LSP kind code for Method. -/
def SymbolKindMethod : Int := 6

/-- Modelled from the spec: LSP kind code for Property. -/
def SymbolKindProperty : Int := 7

/-- Modelled from the spec: LSP kind code for Field. -/
def SymbolKindField : Int := 8

/-- Modelled from the spec: LSP kind code for Constructor. -/
def SymbolKindConstructor : Int := 9

/-- Modelled from the spec: LSP kind code for Enum. -/
def SymbolKindEnum : Int := 10

/-- Modelled from the spec: LSP kind code for Interface. -/
def SymbolKindInterface : Int := 11

/-- Modelled from the spec: LSP kind code for Function. -/
def SymbolKindFunction : Int := 12

/-- Modelled from the spec: LSP kind code for Variable. -/
def SymbolKindVariable : Int := 13

/-- Modelled from the spec: LSP kind code for Struct. -/
def SymbolKindStruct : Int := 23

/-- Modelled from the spec: a 0-indexed line/character position of
`lsp.Position` (§6 input contract). -/
structure Position where
  line : Int
  character : Int
deriving DecidableEq

/-- Modelled from the spec: `lsp.Range`, a start and end position.  The Go
field `End` is a reserved word in Lean and is rendered `endPos`. -/
structure Range where
  start : Position
  endPos : Position
deriving DecidableEq

/-- Modelled from the spec: `lsp.DocumentSymbol` — name, detail (optional
signature text), numeric kind, range, ordered children (§6). -/
inductive DocumentSymbol where
  | mk (name : String) (detail : String) (kind : Int) (range : Range)
       (children : List DocumentSymbol)

/-- Field accessor for `DocumentSymbol.name`. -/
def DocumentSymbol.name : DocumentSymbol → String
  | .mk n _ _ _ _ => n

/-- Field accessor for `DocumentSymbol.detail`. -/
def DocumentSymbol.detail : DocumentSymbol → String
  | .mk _ d _ _ _ => d

/-- Field accessor for `DocumentSymbol.kind`. -/
def DocumentSymbol.kind : DocumentSymbol → Int
  | .mk _ _ k _ _ => k

/-- Field accessor for `DocumentSymbol.range`. -/
def DocumentSymbol.range : DocumentSymbol → Range
  | .mk _ _ _ r _ => r

/-- Field accessor for `DocumentSymbol.children`. -/
def DocumentSymbol.children : DocumentSymbol → List DocumentSymbol
  | .mk _ _ _ _ cs => cs

/-! ## internal/parser: the symbol-tree flattener (chunks.go) -/

/-- Models `parser.ChunkContext` / `model.ChunkContext`. -/
structure ChunkContext where
  module : String
  filePath : String
  fileName : String
  structName : String
  snippet : String
deriving DecidableEq

/-- Models `parser.SemanticChunk` / `model.SemanticChunk` (structural
fields; the view fields live in the separate `Views` record, as in the
`nl` package). -/
structure SemanticChunk where
  name : String
  signature : String
  codeType : String
  docstring : String
  line : Int
  lineFrom : Int
  lineTo : Int
  context : ChunkContext
deriving DecidableEq

/-- Models `shouldExtractSymbol`. -/
def shouldExtractSymbol (kind : Int) : Bool :=
  kind == SymbolKindFunction ||
  kind == SymbolKindMethod ||
  kind == SymbolKindClass ||
  kind == SymbolKindStruct ||
  kind == SymbolKindConstructor ||
  kind == SymbolKindEnum ||
  kind == SymbolKindInterface ||
  kind == SymbolKindNamespace

/-- Models `symbolKindToString`: the Go map lookup with default
`"Unknown"`, rendered as a chain of equality tests. -/
def symbolKindToString (kind : Int) : String :=
  if kind = SymbolKindFunction then "Function"
  else if kind = SymbolKindMethod then "Method"
  else if kind = SymbolKindClass then "Class"
  else if kind = SymbolKindStruct then "Struct"
  else if kind = SymbolKindConstructor then "Constructor"
  else if kind = SymbolKindEnum then "Enum"
  else if kind = SymbolKindInterface then "Interface"
  else if kind = SymbolKindNamespace then "Namespace"
  else "Unknown"

/-- Models `getSignature`: `Detail` when non-empty, else `Name`. -/
def getSignature (symbol : DocumentSymbol) : String :=
  if symbol.detail ≠ "" then symbol.detail else symbol.name

/-- One step of the backward scan of `extractDocstring`, applied to an
already-trimmed line: a `///` or `//!` line contributes its stripped,
trimmed text (the Go loop prepends it, `docLines = append([]string{doc},
docLines...)`); a blank line is skipped; any other line breaks the scan
(`none`). -/
def docLineStep (line : String) (acc : List String) : Option (List String) :=
  match line.data with
  | '/' :: '/' :: '/' :: rest => some (goTrimSpace (String.mk rest) :: acc)
  | '/' :: '/' :: '!' :: rest => some (goTrimSpace (String.mk rest) :: acc)
  | [] => some acc
  | _ => none

/-- The backward scanning loop of `extractDocstring`
(`for i := startLine - 1; i >= 0 && i < len(fileLines); i--`) for a
non-negative index, descending structurally from `i` to `0`. -/
def docScanNat (fileLines : List String) : Nat → List String → List String
  | 0, acc =>
    if h : 0 < fileLines.length then
      match docLineStep (goTrimSpace (fileLines.get ⟨0, h⟩)) acc with
      | some acc2 => acc2
      | none => acc
    else acc
  | i + 1, acc =>
    if h : i + 1 < fileLines.length then
      match docLineStep (goTrimSpace (fileLines.get ⟨i + 1, h⟩)) acc with
      | some acc2 => docScanNat fileLines i acc2
      | none => acc
    else acc

/-- The scanning loop with its Go `int` index: a negative starting index
runs no iteration at all. -/
def docScan (fileLines : List String) (i : Int) (acc : List String) : List String :=
  if i < 0 then acc else docScanNat fileLines i.toNat acc

/-- Models `extractDocstring`. -/
def extractDocstring (symbol : DocumentSymbol) (fileLines : List String) : String :=
  let startLine := symbol.range.start.line
  if startLine = 0 ∨ startLine > (fileLines.length : Int) then ""
  else String.intercalate " " (docScan fileLines (startLine - 1) [])

/-- Models `extractSnippet`: the guarded slice
`fileLines[start : end+1]` joined by newlines. -/
def extractSnippet (rng : Range) (fileLines : List String) : String :=
  let start := rng.start.line
  let stop := rng.endPos.line
  if start < 0 ∨ stop ≥ (fileLines.length : Int) ∨ start > stop then ""
  else String.intercalate "\n" ((fileLines.take (stop + 1).toNat).drop start.toNat)

/-- Split a character list on every `/` character, keeping empty
fragments — the behaviour of `strings.Split(s, "/")`. -/
def splitSlash : List Char → List (List Char)
  | [] => [[]]
  | c :: rest =>
    match splitSlash rest with
    | [] => [[c]]
    | h :: t => if c = '/' then [] :: h :: t else (c :: h) :: t

/-- Models `filepath.Dir` for the slash-separated paths the pipeline
produces (no trailing slashes): the part before the last `/`, `"."` when
there is no slash, `"/"` for a file at the root.  The `Clean`
normalization of exotic paths is not modelled; no claim depends on it. -/
def goDir (path : String) : String :=
  match (splitSlash path.data).reverse with
  | [] => "."
  | [_] => "."
  | _ :: front =>
    let joined := String.intercalate "/" (front.reverse.map String.mk)
    if joined = "" then "/" else joined

/-- Models `filepath.Base` for the same class of paths: the part after
the last `/`, or the path itself when there is no slash. -/
def goBase (path : String) : String :=
  match (splitSlash path.data).reverse with
  | [] => path
  | last :: _ => String.mk last

/-- Models `extractModule`: last segment of `filepath.Dir(filePath)`
split on the path separator. -/
def extractModule (filePath : String) : String :=
  let dir := goDir filePath
  ((splitSlash dir.data).map String.mk).getLastD ""

mutual

/-- Models `processSymbol`: extract the node when its kind qualifies,
thread the enclosing class/struct name to the children, and always
recurse.  The Go version appends into a shared slice; here the appended
chunks are returned in the same order. -/
def processSymbol (filePath : String) (fileLines : List String)
    (parentStruct : String) : DocumentSymbol → List SemanticChunk
  | DocumentSymbol.mk name detail kind range children =>
    if shouldExtractSymbol kind then
      let symbol := DocumentSymbol.mk name detail kind range children
      let chunk : SemanticChunk :=
        { name := name
          signature := getSignature symbol
          codeType := symbolKindToString kind
          docstring := extractDocstring symbol fileLines
          line := range.start.line + 1
          lineFrom := range.start.line + 1
          lineTo := range.endPos.line + 1
          context :=
            { module := extractModule filePath
              filePath := filePath
              fileName := goBase filePath
              structName := parentStruct
              snippet := extractSnippet range fileLines } }
      let parentStruct' :=
        if kind == SymbolKindClass || kind == SymbolKindStruct then name
        else parentStruct
      chunk :: processChildren filePath fileLines parentStruct' children
    else
      processChildren filePath fileLines parentStruct children

/-- The `for _, child := range symbol.Children` loop of `processSymbol`,
and the top-level loop of `ConvertSymbolsToChunks`. -/
def processChildren (filePath : String) (fileLines : List String)
    (parentStruct : String) : List DocumentSymbol → List SemanticChunk
  | [] => []
  | c :: cs =>
    processSymbol filePath fileLines parentStruct c ++
      processChildren filePath fileLines parentStruct cs

end

/-- Models `ConvertSymbolsToChunks`.  The Go function reads the file's
lines itself (`readFileLines`, which returns no lines on any error);
that I/O step is passed in as `fileLines`. -/
def convertSymbolsToChunks (symbols : List DocumentSymbol)
    (filePath : String) (fileLines : List String) : List SemanticChunk :=
  processChildren filePath fileLines "" symbols

/-! ## cmd/clangd-parser (package nl): views, humanizer, subtokenizer -/

/-- Models `nl.Views`. -/
structure Views where
  textView : String
  codeView : String
  identTokens : List String
deriving DecidableEq

/-- Models `Humanize`: normalize `::`/`->`/`.` to spaces, split into
word-character fragments, trim each, drop empties, join with spaces. -/
def humanize (s : String) : String :=
  if s = "" then s
  else
    let parts := splitAlphaNum (String.mk (normalizeSeps s.data))
    String.intercalate " " (filterEmpty (parts.map goTrimSpace))

/-- Head-of-list lowercase test used by the camel-split boundary rule. -/
def headIsLower : List Char → Bool
  | c :: _ => 'a' ≤ c && c ≤ 'z'
  | [] => false

/-- ASCII lowercase-letter test. -/
def isLowerC (c : Char) : Bool := 'a' ≤ c && c ≤ 'z'

/-- ASCII uppercase-letter test. -/
def isUpperC (c : Char) : Bool := 'A' ≤ c && c ≤ 'Z'

/-- ASCII digit test. -/
def isDigitC (c : Char) : Bool := '0' ≤ c && c ≤ '9'

/-- Modelled from the spec: the case-transition split of
`camelcase.Split` (dependency `github.com/fatih/camelcase`, not among the
sources).  Per §4.4 step 4, a boundary falls (a) between a
lowercase/digit character and a following uppercase character, and
(b) between an uppercase character and a following uppercase-then-
lowercase pair, so `"HTTPServer"` splits as `["HTTP", "Server"]`.  The
second argument accumulates the current piece in reverse. -/
def camelAux : List Char → List Char → List (List Char)
  | [], cur => if cur = [] then [] else [cur.reverse]
  | c :: cs, cur =>
    match cur with
    | [] => camelAux cs [c]
    | p :: _ =>
      if (isLowerC p || isDigitC p) && isUpperC c then
        cur.reverse :: camelAux cs [c]
      else if isUpperC p && isUpperC c && headIsLower cs then
        cur.reverse :: camelAux cs [c]
      else camelAux cs (c :: cur)

/-- Modelled from the spec: entry point of the camel split (see
`camelAux`). -/
def camelSplit (u : List Char) : List (List Char) :=
  camelAux u []

/-- Models the `add` closure of `Subtokenize`: skip empty tokens, skip
tokens already emitted (the Go `seen` set holds exactly the members of
`out`), otherwise append. -/
def addTok (out : List String) (t : String) : List String :=
  if t = "" then out
  else if t ∈ out then out
  else out ++ [t]

/-- Models `Subtokenize`: normalize separators, split into raw tokens,
then per raw token emit the token, its lowercase, and for every
underscore part every camel piece with its lowercase, all deduplicated
in first-emission order. -/
def subtokenize (s : String) : List String :=
  if s = "" then []
  else
    let rawTokens := splitAlphaNum (String.mk (normalizeSeps s.data))
    rawTokens.foldl
      (fun out tok =>
        let out1 := addTok out tok
        let out2 := addTok out1 (strLower tok)
        (goFields (fun c => !(c = '_')) tok.data []).foldl
          (fun o u =>
            (camelSplit u).foldl
              (fun o2 part =>
                addTok (addTok o2 (String.mk part)) (strLower (String.mk part)))
              o)
          out2)
      []

/-- Models `TokenizeForText`: split on `\W+` runs, drop empties, rejoin
with single spaces. -/
def tokenizeForText (s : String) : String :=
  String.intercalate " " ((goFields isWordChar s.data []).map String.mk)

/-- Models `BuildViews`: the summary string follows the `fmt.Sprintf`
format `"%s %s %sdefined as %s module %s file %s original_name %s
original_signature %s identifiers %s"` with each fragment trimmed as in
the source, and `codeView` is `strings.TrimSpace` of the signature, a
newline, and the snippet. -/
def buildViews (c : SemanticChunk) : Views :=
  let nameRaw := c.name
  let sigRaw := c.signature
  let identTokens := subtokenize nameRaw
  let nameH := humanize nameRaw
  let sigH := humanize sigRaw
  let doc := goTrimSpace c.docstring
  let docPart := if doc ≠ "" then "that does " ++ doc ++ " " else ""
  let summary := goTrimSpace
    (goTrimSpace c.codeType ++ " " ++ goTrimSpace nameH ++ " " ++ docPart ++
     "defined as " ++ goTrimSpace sigH ++ " module " ++
     goTrimSpace c.context.module ++ " file " ++
     goTrimSpace c.context.fileName ++ " original_name " ++
     goTrimSpace nameRaw ++ " original_signature " ++
     goTrimSpace sigRaw ++ " identifiers " ++
     String.intercalate " " identTokens)
  let textView := tokenizeForText summary
  let codeView := goTrimSpace (sigRaw ++ "\n" ++ c.context.snippet)
  { textView := textView, codeView := codeView, identTokens := identTokens }

/-! ## internal/output: JSON serialization (writer.go)

`WriteJSON` writes exactly the bytes produced by
`json.MarshalIndent(chunks, "", "  ")`; the directory-creation and
file-write steps are I/O and are factored out, so the model returns the
written bytes.  The Go slice carried from `ConvertSymbolsToChunks` to
`WriteJSON` is nil exactly when no chunk was ever appended, and
`encoding/json` renders a nil slice as `null`; a nil-or-not slice is
modelled as `Option (List SemanticChunk)` with `none` for the nil
slice. -/

/-- Hexadecimal digit for the `\u00XX` escapes of `encoding/json`. -/
def hexDigit (n : Nat) : Char :=
  if n < 10 then Char.ofNat ('0'.toNat + n) else Char.ofNat ('a'.toNat + n - 10)

/-- Per-character escaping of Go `encoding/json` string encoding with its
default HTML escaping: quote and backslash are escaped, the HTML
characters and the U+2028/U+2029 line separators become their `\uXXXX`
escapes, and control characters other than `\n`, `\r`, `\t` become
`\u00XX`. -/
def jsonEscapeChar (c : Char) : String :=
  if c = '"' then "\\\""
  else if c = '\\' then "\\\\"
  else if c = '\n' then "\\n"
  else if c = '\r' then "\\r"
  else if c = '\t' then "\\t"
  else if c.toNat < 0x20 then
    String.mk ['\\', 'u', '0', '0', hexDigit (c.toNat / 16), hexDigit (c.toNat % 16)]
  else if c = '<' then "\\u003c"
  else if c = '>' then "\\u003e"
  else if c = '&' then "\\u0026"
  else if c.toNat = 0x2028 then "\\u2028"
  else if c.toNat = 0x2029 then "\\u2029"
  else String.mk [c]

/-- Go `encoding/json` rendering of a string value. -/
def jsonStr (s : String) : String :=
  "\"" ++ String.join (s.data.map jsonEscapeChar) ++ "\""

/-- One `"key": value` line at the given indentation, with a trailing
comma when more fields follow. -/
def jsonField (ind key value : String) (comma : Bool) : String :=
  ind ++ jsonStr key ++ ": " ++ value ++ (if comma then ",\n" else "\n")

/-- `json.MarshalIndent` rendering of a `model.ChunkContext` value at
nesting depth 2 (fields in declaration order; `struct_name` carries
`omitempty` and is dropped when empty). -/
def renderContext (ctx : ChunkContext) : String :=
  "\x7b\n" ++
  jsonField "      " "module" (jsonStr ctx.module) true ++
  jsonField "      " "file_path" (jsonStr ctx.filePath) true ++
  jsonField "      " "file_name" (jsonStr ctx.fileName) true ++
  (if ctx.structName ≠ "" then
    jsonField "      " "struct_name" (jsonStr ctx.structName) true
   else "") ++
  jsonField "      " "snippet" (jsonStr ctx.snippet) false ++
  "    \x7d"

/-- `json.MarshalIndent` rendering of one `model.SemanticChunk` element
of the top-level array (fields in declaration order). -/
def renderChunk (c : SemanticChunk) : String :=
  "\x7b\n" ++
  jsonField "    " "name" (jsonStr c.name) true ++
  jsonField "    " "signature" (jsonStr c.signature) true ++
  jsonField "    " "code_type" (jsonStr c.codeType) true ++
  jsonField "    " "docstring" (jsonStr c.docstring) true ++
  jsonField "    " "line" (toString c.line) true ++
  jsonField "    " "line_from" (toString c.lineFrom) true ++
  jsonField "    " "line_to" (toString c.lineTo) true ++
  jsonField "    " "context" (renderContext c.context) false ++
  "  \x7d"

/-- Models the bytes `WriteJSON` writes: the output of
`json.MarshalIndent(chunks, "", "  ")`.  A nil slice (`none`) encodes as
`null`; a non-nil empty slice as `[]`. -/
def writeJSONData : Option (List SemanticChunk) → String
  | none => "null"
  | some [] => "[]"
  | some chunks =>
    "[\n  " ++ String.intercalate ",\n  " (chunks.map renderChunk) ++ "\n]"

/-- The Go slice value returned by `ConvertSymbolsToChunks`: it starts as
`var chunks []SemanticChunk` (nil) and is only ever appended to, so it is
nil exactly when the chunk list is empty. -/
def convertSymbolsToChunksSlice (symbols : List DocumentSymbol)
    (filePath : String) (fileLines : List String) : Option (List SemanticChunk) :=
  match convertSymbolsToChunks symbols filePath fileLines with
  | [] => none
  | chunks => some chunks

/-! ## Specification-side definitions

These follow the wording of the claims, independently of the Go
implementation, and are compared with the embedded source functions. -/

/-- The extractable-kind set of the claim: Function, Method, Class,
Struct, Constructor, Enum, Interface, Namespace. -/
def extractableKinds : List Int :=
  [SymbolKindFunction, SymbolKindMethod, SymbolKindClass, SymbolKindStruct,
   SymbolKindConstructor, SymbolKindEnum, SymbolKindInterface, SymbolKindNamespace]

mutual

/-- Number of nodes at any depth of one tree whose kind lies in the
extractable set. -/
def countExtractable : DocumentSymbol → Nat
  | .mk _ _ k _ cs =>
    (if k ∈ extractableKinds then 1 else 0) + countExtractableList cs

/-- Sum of `countExtractable` over a forest. -/
def countExtractableList : List DocumentSymbol → Nat
  | [] => 0
  | c :: cs => countExtractable c + countExtractableList cs

end

mutual

/-- Pre-order listing of the extractable nodes of a tree: the node first
(when its kind is extractable), then the listings of its children in
input order. -/
def preorderExtractable : DocumentSymbol → List DocumentSymbol
  | .mk n d k r cs =>
    (if k ∈ extractableKinds then [DocumentSymbol.mk n d k r cs] else []) ++
      preorderExtractableList cs

/-- Concatenation of `preorderExtractable` over a forest, preserving
sibling order. -/
def preorderExtractableList : List DocumentSymbol → List DocumentSymbol
  | [] => []
  | c :: cs => preorderExtractable c ++ preorderExtractableList cs

end

/-- Name of the nearest ancestor of kind Class or Struct in an
innermost-first ancestor stack of (kind, name) pairs; empty when no such
ancestor exists. -/
def nearestStructName : List (Int × String) → String
  | [] => ""
  | (k, n) :: rest =>
    if k = SymbolKindClass ∨ k = SymbolKindStruct then n
    else nearestStructName rest

mutual

/-- For one tree under a given ancestor stack, the expected
`struct_name` of each produced chunk in production order: the nearest
Class/Struct ancestor name at the node. -/
def specStructNames (anc : List (Int × String)) : DocumentSymbol → List String
  | .mk n _ k _ cs =>
    (if k ∈ extractableKinds then [nearestStructName anc] else []) ++
      specStructNamesList ((k, n) :: anc) cs

/-- Concatenation of `specStructNames` over a forest. -/
def specStructNamesList (anc : List (Int × String)) : List DocumentSymbol → List String
  | [] => []
  | c :: cs => specStructNames anc c ++ specStructNamesList anc cs

end

/-- The snippet text the claim describes for a valid 0-indexed inclusive
line range: the exact text of lines `start` through `stop`, joined by a
single newline, written with `drop`-then-`take` (the source slices with
`take`-then-`drop`). -/
def specSnippetText (start stop : Int) (fileLines : List String) : String :=
  String.intercalate "\n"
    ((fileLines.drop start.toNat).take (stop.toNat + 1 - start.toNat))

/-! ## Claim theorems -/

/-- C8: on the five-line file of the test, with a symbol starting at
0-indexed line 4, `extractDocstring` skips the blank line, collects the
two `///` lines top-down, stops at the plain `//` comment, and joins
with single spaces. -/
theorem extractDocstring_multiline_example :
    extractDocstring
      (DocumentSymbol.mk "function" "void function()" SymbolKindFunction
        ⟨⟨4, 0⟩, ⟨4, 18⟩⟩ [])
      ["// Regular comment", "/// This is documentation", "/// on multiple lines",
       "", "void function() {}"] = "This is documentation on multiple lines" := by
  decide

/-- C9: `Subtokenize "QuaGzipFile"` contains the eight required tokens
and has no duplicate entries (case-sensitive). -/
theorem subtokenize_quaGzipFile :
    "QuaGzipFile" ∈ subtokenize "QuaGzipFile" ∧
    "quagzipfile" ∈ subtokenize "QuaGzipFile" ∧
    "Qua" ∈ subtokenize "QuaGzipFile" ∧
    "qua" ∈ subtokenize "QuaGzipFile" ∧
    "Gzip" ∈ subtokenize "QuaGzipFile" ∧
    "gzip" ∈ subtokenize "QuaGzipFile" ∧
    "File" ∈ subtokenize "QuaGzipFile" ∧
    "file" ∈ subtokenize "QuaGzipFile" ∧
    (subtokenize "QuaGzipFile").Nodup := by
  decide

/-- C2, evaluated at the failing input: a tree holding one Variable node
(nothing extractable) makes `ConvertSymbolsToChunks` return its
never-appended nil slice, and `WriteJSON` then writes `null` — not the
empty array the claim states. -/
theorem writeJSON_nil_slice_null :
    convertSymbolsToChunks
      [DocumentSymbol.mk "x" "" SymbolKindVariable ⟨⟨0, 0⟩, ⟨0, 1⟩⟩ []]
      "/tmp/a.cpp" ["int x;"] = [] ∧
    writeJSONData (convertSymbolsToChunksSlice
      [DocumentSymbol.mk "x" "" SymbolKindVariable ⟨⟨0, 0⟩, ⟨0, 1⟩⟩ []]
      "/tmp/a.cpp" ["int x;"]) = "null" ∧
    writeJSONData (some []) = "[]" := by
  decide

/-- C3 counterexample: a symbol whose 0-indexed start line equals the
number of available lines (1 = 1) is not rejected by the guard
(`startLine > len` only), and the backward scan still finds the `///`
line, so the docstring is non-empty — refuting the claimed
`start ≥ line count → empty`. -/
theorem extractDocstring_at_line_count_cex :
    (("/// doc" :: []).length : Int) ≤
      (DocumentSymbol.mk "f" "" SymbolKindFunction ⟨⟨1, 0⟩, ⟨1, 1⟩⟩ []).range.start.line ∧
    extractDocstring
      (DocumentSymbol.mk "f" "" SymbolKindFunction ⟨⟨1, 0⟩, ⟨1, 1⟩⟩ [])
      ["/// doc"] ≠ "" := by
  decide

/-- C7 counterexample: the single-line file whose line is empty gives a
valid range (start 0, end 0, within bounds) whose snippet is the empty
string, refuting "empty exactly when the range is invalid". -/
theorem extractSnippet_valid_empty_cex :
    ¬ ((0 : Int) < 0 ∨ (0 : Int) ≥ (("" :: []).length : Int) ∨ (0 : Int) > (0 : Int)) ∧
    extractSnippet ⟨⟨0, 0⟩, ⟨0, 7⟩⟩ [""] = "" := by
  decide

/-- C1 counterexample: a chunk with signature `"f"` and empty snippet.
`BuildViews` trims the concatenation as a whole, yielding `"f"`,
while the claimed `trim(signature) + "\n" + trim(snippet)` is `"f\n"`. -/
theorem codeView_whole_trim_cex :
    (buildViews
      { name := "f"
        signature := "f"
        codeType := "Function"
        docstring := ""
        line := 1
        lineFrom := 1
        lineTo := 1
        context :=
          { module := "m"
            filePath := "/m/a.cpp"
            fileName := "a.cpp"
            structName := ""
            snippet := "" } }).codeView = "f" ∧
    goTrimSpace "f" ++ "\n" ++ goTrimSpace "" = "f\n" := by
  decide

/-- C3 as amended: the docstring is empty whenever the 0-indexed start
line is 0 or strictly exceeds the number of available lines (the code's
guard is `startLine > len(fileLines)`, so a start line equal to the line
count is still scanned). -/
theorem extractDocstring_out_of_range_empty (symbol : DocumentSymbol)
    (fileLines : List String)
    (h : symbol.range.start.line = 0 ∨
         symbol.range.start.line > (fileLines.length : Int)) :
    extractDocstring symbol fileLines = "" := by
  simp only [extractDocstring]
  rw [if_pos h]

/-- Witness for `extractDocstring_out_of_range_empty` at a symbol with
start line 0. -/
theorem extractDocstring_out_of_range_empty_witness :
    extractDocstring
      (DocumentSymbol.mk "f" "" SymbolKindFunction ⟨⟨0, 0⟩, ⟨0, 1⟩⟩ [])
      ["/// doc"] = "" :=
  extractDocstring_out_of_range_empty
    (DocumentSymbol.mk "f" "" SymbolKindFunction ⟨⟨0, 0⟩, ⟨0, 1⟩⟩ [])
    ["/// doc"] (Or.inl (by decide))

/-- C7 as amended: an invalid range (negative start, end at or beyond
the number of lines, or start after end) yields the empty string, and a
valid range yields the exact text of lines `start` through `end` joined
by single newlines (which is itself empty when all those lines are
empty, so emptiness does not characterize invalidity). -/
theorem extractSnippet_range_contract (rng : Range) (fileLines : List String) :
    (rng.start.line < 0 ∨ rng.endPos.line ≥ (fileLines.length : Int) ∨
       rng.start.line > rng.endPos.line →
      extractSnippet rng fileLines = "") ∧
    (0 ≤ rng.start.line → rng.endPos.line < (fileLines.length : Int) →
       rng.start.line ≤ rng.endPos.line →
      extractSnippet rng fileLines =
        specSnippetText rng.start.line rng.endPos.line fileLines) := by
  constructor
  · intro h
    simp only [extractSnippet]
    rw [if_pos h]
  · intro h1 h2 h3
    simp only [extractSnippet, specSnippetText]
    rw [if_neg (by omega)]
    have he : (rng.endPos.line + 1).toNat = rng.endPos.line.toNat + 1 := by omega
    have hs : rng.start.line.toNat + (rng.endPos.line.toNat + 1 -
        rng.start.line.toNat) = rng.endPos.line.toNat + 1 := by omega
    rw [he, List.take_drop, hs]

/-- Witness for `extractSnippet_range_contract` at a concrete invalid
range and a concrete valid range. -/
theorem extractSnippet_range_contract_witness :
    extractSnippet ⟨⟨-1, 0⟩, ⟨0, 0⟩⟩ ["a", "b"] = "" ∧
    extractSnippet ⟨⟨0, 0⟩, ⟨1, 0⟩⟩ ["a", "b"] =
      specSnippetText 0 1 ["a", "b"] :=
  ⟨(extractSnippet_range_contract ⟨⟨-1, 0⟩, ⟨0, 0⟩⟩ ["a", "b"]).1
      (Or.inl (by decide)),
   (extractSnippet_range_contract ⟨⟨0, 0⟩, ⟨1, 0⟩⟩ ["a", "b"]).2
      (by decide) (by decide) (by decide)⟩

/-- The source's boolean `shouldExtractSymbol` decides exactly
membership in the claim's extractable-kind set. -/
theorem shouldExtract_iff_mem (k : Int) :
    shouldExtractSymbol k = true ↔ k ∈ extractableKinds := by
  simp only [shouldExtractSymbol, extractableKinds, Bool.or_eq_true, beq_iff_eq,
    List.mem_cons, List.not_mem_nil, or_false]
  tauto

mutual

/-- Per-tree form of C4: one tree yields as many chunks as it has
extractable nodes, regardless of the threaded context. -/
theorem processSymbol_length (fp : String) (fl : List String) (ps : String)
    (sym : DocumentSymbol) :
    (processSymbol fp fl ps sym).length = countExtractable sym := by
  cases sym with
  | mk n d k r cs =>
    by_cases h : shouldExtractSymbol k = true
    · have hm : k ∈ extractableKinds := (shouldExtract_iff_mem k).mp h
      simp only [processSymbol, countExtractable, h, if_pos hm, if_true,
        List.length_cons, processChildren_length]
      omega
    · have h2 : shouldExtractSymbol k = false := by
        revert h
        cases shouldExtractSymbol k <;> simp
      have hm : k ∉ extractableKinds := fun hmem =>
        h ((shouldExtract_iff_mem k).mpr hmem)
      simp only [processSymbol, countExtractable, h2, if_neg hm,
        Bool.false_eq_true, if_false, processChildren_length]
      omega

/-- Per-forest form of C4. -/
theorem processChildren_length (fp : String) (fl : List String) (ps : String)
    (syms : List DocumentSymbol) :
    (processChildren fp fl ps syms).length = countExtractableList syms := by
  cases syms with
  | nil => simp [processChildren, countExtractableList]
  | cons c cs =>
    simp only [processChildren, countExtractableList, List.length_append,
      processSymbol_length, processChildren_length]

end

/-- C4: for every symbol tree the number of chunks equals the number of
nodes, at any depth, whose kind lies in the extractable set; other kinds
produce no chunk while their children are still visited. -/
theorem chunk_count_eq_extractable_count (symbols : List DocumentSymbol)
    (filePath : String) (fileLines : List String) :
    (convertSymbolsToChunks symbols filePath fileLines).length =
      countExtractableList symbols :=
  processChildren_length filePath fileLines "" symbols

mutual

/-- Per-tree form of C6: the chunks of one tree, projected to
(name, 1-indexed start line), list exactly the extractable nodes in
pre-order. -/
theorem processSymbol_preorder (fp : String) (fl : List String) (ps : String)
    (sym : DocumentSymbol) :
    (processSymbol fp fl ps sym).map (fun c => (c.name, c.line)) =
      (preorderExtractable sym).map
        (fun s => (s.name, s.range.start.line + 1)) := by
  cases sym with
  | mk n d k r cs =>
    by_cases h : shouldExtractSymbol k = true
    · have hm : k ∈ extractableKinds := (shouldExtract_iff_mem k).mp h
      simp only [processSymbol, preorderExtractable, h, if_pos hm, if_true,
        List.map_cons, List.map_append, List.singleton_append,
        processChildren_preorder, DocumentSymbol.name, DocumentSymbol.range]
    · have h2 : shouldExtractSymbol k = false := by
        revert h
        cases shouldExtractSymbol k <;> simp
      have hm : k ∉ extractableKinds := fun hmem =>
        h ((shouldExtract_iff_mem k).mpr hmem)
      simp only [processSymbol, preorderExtractable, h2, if_neg hm,
        Bool.false_eq_true, if_false, List.nil_append,
        processChildren_preorder]

/-- Per-forest form of C6, preserving sibling order. -/
theorem processChildren_preorder (fp : String) (fl : List String) (ps : String)
    (syms : List DocumentSymbol) :
    (processChildren fp fl ps syms).map (fun c => (c.name, c.line)) =
      (preorderExtractableList syms).map
        (fun s => (s.name, s.range.start.line + 1)) := by
  cases syms with
  | nil => simp [processChildren, preorderExtractableList]
  | cons c cs =>
    simp only [processChildren, preorderExtractableList, List.map_append,
      processSymbol_preorder, processChildren_preorder]

end

/-- C6: the chunk list is the pre-order listing of the extractable
nodes — identified by (name, 1-indexed start line) — so a node's chunk
precedes every descendant's chunk and sibling subtrees keep their input
order. -/
theorem chunks_in_preorder (symbols : List DocumentSymbol)
    (filePath : String) (fileLines : List String) :
    (convertSymbolsToChunks symbols filePath fileLines).map
        (fun c => (c.name, c.line)) =
      (preorderExtractableList symbols).map
        (fun s => (s.name, s.range.start.line + 1)) :=
  processChildren_preorder filePath fileLines "" symbols

/-- Pushing one ancestor whose kind is Class or Struct makes it the
nearest enclosing type. -/
theorem nearestStructName_push_class (k : Int) (n : String)
    (anc : List (Int × String)) (hks : k = SymbolKindClass ∨ k = SymbolKindStruct) :
    nearestStructName ((k, n) :: anc) = n := by
  simp [nearestStructName, hks]

/-- Pushing one ancestor of any other kind leaves the nearest enclosing
type unchanged. -/
theorem nearestStructName_push_other (k : Int) (n : String)
    (anc : List (Int × String))
    (hks : ¬ (k = SymbolKindClass ∨ k = SymbolKindStruct)) :
    nearestStructName ((k, n) :: anc) = nearestStructName anc := by
  simp [nearestStructName, hks]

mutual

/-- Per-tree form of C5: when the threaded context equals the nearest
Class/Struct ancestor name of the stack `anc`, every chunk of the tree
carries the nearest Class/Struct ancestor name at its own node. -/
theorem processSymbol_structName (fp : String) (fl : List String)
    (anc : List (Int × String)) (sym : DocumentSymbol) :
    (processSymbol fp fl (nearestStructName anc) sym).map
        (fun c => c.context.structName) = specStructNames anc sym := by
  cases sym with
  | mk n d k r cs =>
    by_cases h : shouldExtractSymbol k = true
    · have hm : k ∈ extractableKinds := (shouldExtract_iff_mem k).mp h
      by_cases hks : k = SymbolKindClass ∨ k = SymbolKindStruct
      · have hb : (k == SymbolKindClass || k == SymbolKindStruct) = true := by
          rcases hks with h5 | h23
          · simp [h5]
          · simp [h23]
        simp only [processSymbol, specStructNames, h, if_true, hb, if_pos hm,
          List.map_cons, List.singleton_append]
        refine congrArg₂ List.cons rfl ?_
        have h3 := processSymbol_structName_children fp fl ((k, n) :: anc) cs
        rw [nearestStructName_push_class k n anc hks] at h3
        exact h3
      · have hb : (k == SymbolKindClass || k == SymbolKindStruct) = false := by
          rcases not_or.mp hks with ⟨h5, h23⟩
          simp [h5, h23]
        simp only [processSymbol, specStructNames, h, if_true, hb,
          Bool.false_eq_true, if_false, if_pos hm, List.map_cons,
          List.singleton_append]
        refine congrArg₂ List.cons rfl ?_
        have h3 := processSymbol_structName_children fp fl ((k, n) :: anc) cs
        rw [nearestStructName_push_other k n anc hks] at h3
        exact h3
    · have h2 : shouldExtractSymbol k = false := by
        revert h
        cases shouldExtractSymbol k <;> simp
      have hm : k ∉ extractableKinds := fun hmem =>
        h ((shouldExtract_iff_mem k).mpr hmem)
      have hks : ¬ (k = SymbolKindClass ∨ k = SymbolKindStruct) := by
        intro hor
        apply hm
        rcases hor with h5 | h23
        · rw [h5]; simp [extractableKinds]
        · rw [h23]; simp [extractableKinds]
      simp only [processSymbol, specStructNames, h2, Bool.false_eq_true,
        if_false, if_neg hm, List.nil_append]
      have h3 := processSymbol_structName_children fp fl ((k, n) :: anc) cs
      rw [nearestStructName_push_other k n anc hks] at h3
      exact h3

/-- Per-forest form of C5. -/
theorem processSymbol_structName_children (fp : String) (fl : List String)
    (anc : List (Int × String)) (syms : List DocumentSymbol) :
    (processChildren fp fl (nearestStructName anc) syms).map
        (fun c => c.context.structName) = specStructNamesList anc syms := by
  cases syms with
  | nil => simp [processChildren, specStructNamesList]
  | cons c cs =>
    simp only [processChildren, specStructNamesList, List.map_append,
      processSymbol_structName, processSymbol_structName_children]

end

/-- C5: every produced chunk's `struct_name` is the name of the nearest
ancestor node of kind Class or Struct (empty at top level), ancestors of
other kinds passing the inherited value through unchanged. -/
theorem structName_eq_nearest_ancestor (symbols : List DocumentSymbol)
    (filePath : String) (fileLines : List String) :
    (convertSymbolsToChunks symbols filePath fileLines).map
        (fun c => c.context.structName) = specStructNamesList [] symbols :=
  processSymbol_structName_children filePath fileLines [] symbols

/-- A well-formed emitted token: non-empty and made only of
`[A-Za-z0-9_]` characters. -/
def goodTok (t : String) : Prop :=
  t ≠ "" ∧ ∀ c ∈ t.data, isWordChar c = true

/-- Lowercasing preserves the word-character class. -/
theorem asciiToLower_word (c : Char) (h : isWordChar c = true) :
    isWordChar (asciiToLower c) = true := by
  unfold asciiToLower
  split
  all_goals first
  | decide
  | exact h

/-- Every fragment cut out by `goFields` is non-empty and consists of
kept characters only, provided the running fragment does. -/
theorem goFields_forall (keep : Char → Bool) (l : List Char) :
    ∀ (cur : List Char), (∀ c ∈ cur, keep c = true) →
      ∀ t ∈ goFields keep l cur, t ≠ [] ∧ ∀ c ∈ t, keep c = true := by
  induction l with
  | nil =>
    intro cur hcur t ht
    by_cases hc : cur = []
    · simp [goFields, hc] at ht
    · simp only [goFields, if_neg hc, List.mem_singleton] at ht
      subst ht
      refine ⟨by simpa using hc, ?_⟩
      intro c hcm
      exact hcur c (List.mem_reverse.mp hcm)
  | cons c cs ih =>
    intro cur hcur t ht
    by_cases hk : keep c = true
    · simp only [goFields, hk, if_true] at ht
      refine ih (c :: cur) ?_ t ht
      intro a ha
      rcases List.mem_cons.mp ha with rfl | ha
      · exact hk
      · exact hcur a ha
    · have hk2 : keep c = false := by
        revert hk
        cases keep c <;> simp
      by_cases hc : cur = []
      · simp only [goFields, hk2, Bool.false_eq_true, if_false, hc,
          if_pos rfl] at ht
        exact ih [] (by simp) t ht
      · simp only [goFields, hk2, Bool.false_eq_true, if_false, if_neg hc,
          List.mem_cons] at ht
        rcases ht with rfl | ht
        · refine ⟨by simpa using hc, ?_⟩
          intro a ha
          exact hcur a (List.mem_reverse.mp ha)
        · exact ih [] (by simp) t ht

/-- Characters of `goFields` fragments come from the input or the
running fragment. -/
theorem goFields_chars (keep : Char → Bool) (l : List Char) :
    ∀ (cur : List Char), ∀ t ∈ goFields keep l cur, ∀ c ∈ t, c ∈ l ∨ c ∈ cur := by
  induction l with
  | nil =>
    intro cur t ht c hc
    by_cases hcur : cur = []
    · simp [goFields, hcur] at ht
    · simp only [goFields, if_neg hcur, List.mem_singleton] at ht
      subst ht
      exact Or.inr (List.mem_reverse.mp hc)
  | cons x xs ih =>
    intro cur t ht c hc
    by_cases hk : keep x = true
    · simp only [goFields, hk, if_true] at ht
      rcases ih (x :: cur) t ht c hc with h | h
      · exact Or.inl (List.mem_cons_of_mem x h)
      · rcases List.mem_cons.mp h with rfl | h
        · exact Or.inl (List.mem_cons_self c xs)
        · exact Or.inr h
    · have hk2 : keep x = false := by
        revert hk
        cases keep x <;> simp
      by_cases hcur : cur = []
      · simp only [goFields, hk2, Bool.false_eq_true, if_false, hcur,
          if_pos rfl] at ht
        rcases ih [] t ht c hc with h | h
        · exact Or.inl (List.mem_cons_of_mem x h)
        · simp at h
      · simp only [goFields, hk2, Bool.false_eq_true, if_false, if_neg hcur,
          List.mem_cons] at ht
        rcases ht with rfl | ht
        · exact Or.inr (List.mem_reverse.mp hc)
        · rcases ih [] t ht c hc with h | h
          · exact Or.inl (List.mem_cons_of_mem x h)
          · simp at h

/-- Characters of camel-split pieces come from the input or the running
piece. -/
theorem camelAux_chars (l : List Char) :
    ∀ (cur : List Char), ∀ t ∈ camelAux l cur, ∀ c ∈ t, c ∈ l ∨ c ∈ cur := by
  induction l with
  | nil =>
    intro cur t ht c hc
    by_cases hcur : cur = []
    · simp [camelAux, hcur] at ht
    · simp only [camelAux, if_neg hcur, List.mem_singleton] at ht
      subst ht
      exact Or.inr (List.mem_reverse.mp hc)
  | cons x xs ih =>
    intro cur t ht c hc
    match hcur : cur with
    | [] =>
      simp only [camelAux] at ht
      rcases ih [x] t ht c hc with h | h
      · exact Or.inl (List.mem_cons_of_mem x h)
      · rcases List.mem_singleton.mp h with rfl
        exact Or.inl (List.mem_cons_self c xs)
    | p :: rest =>
      simp only [camelAux] at ht
      by_cases h1 : ((isLowerC p || isDigitC p) && isUpperC x) = true
      · rw [if_pos h1] at ht
        rcases List.mem_cons.mp ht with rfl | ht
        · exact Or.inr (List.mem_reverse.mp hc)
        · rcases ih [x] t ht c hc with h | h
          · exact Or.inl (List.mem_cons_of_mem x h)
          · rcases List.mem_singleton.mp h with rfl
            exact Or.inl (List.mem_cons_self c xs)
      · rw [if_neg h1] at ht
        by_cases h2 : (isUpperC p && isUpperC x && headIsLower xs) = true
        · rw [if_pos h2] at ht
          rcases List.mem_cons.mp ht with rfl | ht
          · exact Or.inr (List.mem_reverse.mp hc)
          · rcases ih [x] t ht c hc with h | h
            · exact Or.inl (List.mem_cons_of_mem x h)
            · rcases List.mem_singleton.mp h with rfl
              exact Or.inl (List.mem_cons_self c xs)
        · rw [if_neg h2] at ht
          rcases ih (x :: p :: rest) t ht c hc with h | h
          · exact Or.inl (List.mem_cons_of_mem x h)
          · rcases List.mem_cons.mp h with rfl | h
            · exact Or.inl (List.mem_cons_self c xs)
            · exact Or.inr h

/-- The `add` closure preserves any property that all previous members
have and the candidate has when non-empty. -/
theorem addTok_forall (P : String → Prop) (out : List String) (t : String)
    (hout : ∀ x ∈ out, P x) (ht : t ≠ "" → P t) :
    ∀ x ∈ addTok out t, P x := by
  intro x hx
  unfold addTok at hx
  by_cases h1 : t = ""
  · rw [if_pos h1] at hx
    exact hout x hx
  · rw [if_neg h1] at hx
    by_cases h2 : t ∈ out
    · rw [if_pos h2] at hx
      exact hout x hx
    · rw [if_neg h2] at hx
      rcases List.mem_append.mp hx with h | h
      · exact hout x h
      · rw [List.mem_singleton.mp h]
        exact ht h1

/-- The innermost emission loop of `Subtokenize` (camel pieces plus
lowercase variants) keeps every member well formed when the pieces hold
word characters only. -/
theorem camel_fold_good (parts : List (List Char)) :
    ∀ (o : List String), (∀ x ∈ o, goodTok x) →
      (∀ p ∈ parts, ∀ c ∈ p, isWordChar c = true) →
      ∀ x ∈ parts.foldl
          (fun o2 part =>
            addTok (addTok o2 (String.mk part)) (strLower (String.mk part)))
          o,
        goodTok x := by
  induction parts with
  | nil =>
    intro o ho _ x hx
    exact ho x hx
  | cons p ps ih =>
    intro o ho hp x hx
    simp only [List.foldl_cons] at hx
    refine ih _ ?_ (fun q hq => hp q (List.mem_cons_of_mem _ hq)) x hx
    have hpc : ∀ c ∈ p, isWordChar c = true := hp p (List.mem_cons_self p ps)
    refine addTok_forall goodTok _ _ ?_ ?_
    · refine addTok_forall goodTok _ _ ho ?_
      intro hne
      exact ⟨hne, hpc⟩
    · intro hne
      refine ⟨hne, ?_⟩
      intro c hc
      rcases List.mem_map.mp hc with ⟨a, ha, rfl⟩
      exact asciiToLower_word a (hpc a ha)

/-- The underscore-then-camel loop of `Subtokenize` keeps every member
well formed when the underscore parts hold word characters only. -/
theorem underscore_fold_good (us : List (List Char)) :
    ∀ (o : List String), (∀ x ∈ o, goodTok x) →
      (∀ u ∈ us, ∀ c ∈ u, isWordChar c = true) →
      ∀ x ∈ us.foldl
          (fun o u =>
            (camelSplit u).foldl
              (fun o2 part =>
                addTok (addTok o2 (String.mk part)) (strLower (String.mk part)))
              o)
          o,
        goodTok x := by
  induction us with
  | nil =>
    intro o ho _ x hx
    exact ho x hx
  | cons u us2 ih =>
    intro o ho hu x hx
    simp only [List.foldl_cons] at hx
    refine ih _ ?_ (fun q hq => hu q (List.mem_cons_of_mem _ hq)) x hx
    refine camel_fold_good (camelSplit u) o ho ?_
    intro p hp c hc
    rcases camelAux_chars u [] p hp c hc with h | h
    · exact hu u (List.mem_cons_self u us2) c h
    · simp at h

/-- The raw-token loop of `Subtokenize` keeps every member well formed
when every raw token holds word characters only. -/
theorem raw_fold_good (toks : List String) :
    ∀ (o : List String), (∀ x ∈ o, goodTok x) →
      (∀ t ∈ toks, ∀ c ∈ t.data, isWordChar c = true) →
      ∀ x ∈ toks.foldl
          (fun out tok =>
            let out1 := addTok out tok
            let out2 := addTok out1 (strLower tok)
            (goFields (fun c => !(c = '_')) tok.data []).foldl
              (fun o u =>
                (camelSplit u).foldl
                  (fun o2 part =>
                    addTok (addTok o2 (String.mk part))
                      (strLower (String.mk part)))
                  o)
              out2)
          o,
        goodTok x := by
  induction toks with
  | nil =>
    intro o ho _ x hx
    exact ho x hx
  | cons tok toks2 ih =>
    intro o ho htoks x hx
    simp only [List.foldl_cons] at hx
    refine ih _ ?_ (fun q hq => htoks q (List.mem_cons_of_mem _ hq)) x hx
    have htok : ∀ c ∈ tok.data, isWordChar c = true :=
      htoks tok (List.mem_cons_self tok toks2)
    intro y hy
    refine underscore_fold_good _ _ ?_ ?_ y hy
    · refine addTok_forall goodTok _ _ ?_ ?_
      · refine addTok_forall goodTok _ _ ho ?_
        intro hne
        exact ⟨hne, htok⟩
      · intro hne
        refine ⟨hne, ?_⟩
        intro c hc
        rcases List.mem_map.mp hc with ⟨a, ha, rfl⟩
        exact asciiToLower_word a (htok a ha)
    · intro u hu c hc
      rcases goFields_chars (fun c => !(c = '_')) tok.data [] u hu c hc with h | h
      · exact htok c h
      · simp at h

/-- C10: every token `Subtokenize` emits is non-empty and consists only
of ASCII letters, digits, and underscores; no separator or punctuation
character appears inside an emitted token. -/
theorem subtokenize_tokens_wordlike (s t : String) (h : t ∈ subtokenize s) :
    t ≠ "" ∧ ∀ c ∈ t.data, isWordChar c = true := by
  unfold subtokenize at h
  by_cases hs : s = ""
  · rw [if_pos hs] at h
    simp at h
  · rw [if_neg hs] at h
    refine raw_fold_good _ [] (by simp) ?_ t h
    intro t2 ht2 c hc
    rcases List.mem_map.mp ht2 with ⟨w, hw, rfl⟩
    exact (goFields_forall isWordChar _ [] (by simp) w hw).2 c hc

/-- Witness for `subtokenize_tokens_wordlike` at the token `"Qua"` of
`Subtokenize "QuaGzipFile"`. -/
theorem subtokenize_tokens_wordlike_witness :
    ("Qua" : String) ≠ "" ∧
      ∀ c ∈ ("Qua" : String).data, isWordChar c = true :=
  subtokenize_tokens_wordlike "QuaGzipFile" "Qua" (by decide)

/-- A list fixed by `trimChars` is fixed by each of its two phases. -/
theorem trim_eq_self_parts {l : List Char} (h : trimChars l = l) :
    l.dropWhile goIsSpace = l ∧ List.rdropWhile goIsSpace l = l := by
  unfold trimChars at h
  have hsub1 : List.Sublist (l.dropWhile goIsSpace) l :=
    List.dropWhile_sublist goIsSpace
  have hlen2 : (List.rdropWhile goIsSpace (l.dropWhile goIsSpace)).length ≤
      (l.dropWhile goIsSpace).length := by
    simp only [List.rdropWhile, List.length_reverse]
    exact le_trans
      (List.Sublist.length_le (List.dropWhile_sublist goIsSpace))
      (by simp)
  have hlen0 : (List.rdropWhile goIsSpace (l.dropWhile goIsSpace)).length =
      l.length := congrArg List.length h
  have h1len : (l.dropWhile goIsSpace).length = l.length := by
    have := hsub1.length_le
    omega
  have h1 : l.dropWhile goIsSpace = l := hsub1.eq_of_length h1len
  rw [h1] at h
  exact ⟨h1, h⟩

/-- Gluing two lists, each already trimmed on its outer side and
non-empty, around a newline produces a list that trimming leaves
unchanged. -/
theorem trimChars_append_sandwich (a b : List Char)
    (ha : a.dropWhile goIsSpace = a) (hb : List.rdropWhile goIsSpace b = b)
    (hane : a ≠ []) (hbne : b ≠ []) :
    trimChars (a ++ '\n' :: b) = a ++ '\n' :: b := by
  unfold trimChars
  obtain ⟨c, t, rfl⟩ := List.exists_cons_of_ne_nil hane
  have hc : ¬ goIsSpace c = true := by
    intro hcp
    rw [List.dropWhile_cons_of_pos hcp] at ha
    have h1 : (t.dropWhile goIsSpace).length ≤ t.length :=
      (List.dropWhile_sublist goIsSpace).length_le
    have h2 := congrArg List.length ha
    simp only [List.length_cons] at h2
    omega
  rw [List.cons_append, List.dropWhile_cons_of_neg hc]
  rw [List.rdropWhile_eq_self_iff]
  intro hl
  have h2 : ('\n' :: b) ≠ [] := by simp
  have hgl0 : ((c :: t) ++ '\n' :: b).getLast (by simp) = b.getLast hbne :=
    (List.getLast_append_of_ne_nil h2).trans (List.getLast_cons hbne)
  have hgl : (c :: (t ++ '\n' :: b)).getLast hl = b.getLast hbne := hgl0
  rw [hgl]
  exact List.rdropWhile_eq_self_iff.mp hb hbne

/-- C1 as amended: `BuildViews` trims the concatenation
`signature + "\n" + snippet` as a whole; when signature and snippet are
each non-empty and already free of surrounding whitespace this equals
`trim(signature) + "\n" + trim(snippet)`, the form the claim states. -/
theorem codeView_trimmed_parts (c : SemanticChunk)
    (h1 : goTrimSpace c.signature = c.signature) (h2 : c.signature ≠ "")
    (h3 : goTrimSpace c.context.snippet = c.context.snippet)
    (h4 : c.context.snippet ≠ "") :
    (buildViews c).codeView =
      goTrimSpace c.signature ++ "\n" ++ goTrimSpace c.context.snippet := by
  rw [h1, h3]
  show goTrimSpace (c.signature ++ "\n" ++ c.context.snippet) =
    c.signature ++ "\n" ++ c.context.snippet
  apply String.ext
  have hd : (c.signature ++ "\n" ++ c.context.snippet).data =
      c.signature.data ++ '\n' :: c.context.snippet.data := by
    simp [String.data_append]
  have hda : (goTrimSpace (c.signature ++ "\n" ++ c.context.snippet)).data =
      trimChars ((c.signature ++ "\n" ++ c.context.snippet).data) := rfl
  rw [hda, hd]
  have hsig : trimChars c.signature.data = c.signature.data :=
    congrArg String.data h1
  have hsnip : trimChars c.context.snippet.data = c.context.snippet.data :=
    congrArg String.data h3
  have hsne : c.signature.data ≠ [] := fun hh =>
    h2 (String.ext (show c.signature.data = ("" : String).data from hh))
  have hpne : c.context.snippet.data ≠ [] := fun hh =>
    h4 (String.ext (show c.context.snippet.data = ("" : String).data from hh))
  exact trimChars_append_sandwich _ _ (trim_eq_self_parts hsig).1
    (trim_eq_self_parts hsnip).2 hsne hpne

/-- Witness for `codeView_trimmed_parts` at a chunk with signature
`"void f()"` and snippet `"void f() {}"`. -/
theorem codeView_trimmed_parts_witness :
    (buildViews
      { name := "f"
        signature := "void f()"
        codeType := "Function"
        docstring := ""
        line := 1
        lineFrom := 1
        lineTo := 1
        context :=
          { module := "m"
            filePath := "/m/a.cpp"
            fileName := "a.cpp"
            structName := ""
            snippet := "void f() {}" } }).codeView =
      goTrimSpace "void f()" ++ "\n" ++ goTrimSpace "void f() {}" :=
  codeView_trimmed_parts
    { name := "f"
      signature := "void f()"
      codeType := "Function"
      docstring := ""
      line := 1
      lineFrom := 1
      lineTo := 1
      context :=
        { module := "m"
          filePath := "/m/a.cpp"
          fileName := "a.cpp"
          structName := ""
          snippet := "void f() {}" } }
    (by decide) (by decide) (by decide) (by decide)
